import Mathlib

/-!
Verification development for the search-space sampling core of
MyProcessOptimizer (`Space`, `Dimension` variants, `rvs` random sampling and
`lhs` Latin hypercube sampling).  The repository ships only a notebook of
example outputs, so the sampling core itself is modelled from the
specification, with the notebook's printed outputs used as the authority on
observable behaviour (in particular: unseeded LHS is pseudo-random and
repeats identically, while unseeded random sampling draws fresh entropy).

Real numbers at the model level are exact (`ℚ` for bounds and variates, `ℝ`
for transformed continuous values); floating point is out of scope.
-/

set_option maxHeartbeats 1000000

namespace MPO

/-- Modelled from the spec: prior of a Real dimension, a closed sum of
uniform and log-uniform (§3, §9: closed variant type). -/
inductive Prior
  | uniform
  | logUniform
deriving DecidableEq

/-- Modelled from the spec: a Dimension is a closed sum of the three
variants Real(low, high, prior), Integer(low, high), Categorical(labels)
(§3).  Bounds are exact rationals / integers at the model level. -/
inductive Dim
  | real (low high : ℚ) (prior : Prior)
  | integer (low high : ℤ)
  | categorical (categories : List String)
deriving DecidableEq

/-- A sampled value: runtime type matches the dimension variant (§3
"Sample Point"): float for Real, int for Integer, label for Categorical. -/
inductive Value
  | realVal (x : ℝ)
  | intVal (z : ℤ)
  | catVal (s : String)

/-- Modelled from the spec (§4.1): quantile transform of a Real dimension.
Uniform: `low + u*(high-low)`; log-uniform:
`exp(ln low + u*(ln high - ln low))`. -/
noncomputable def realTransform (low high : ℚ) : Prior → ℝ → ℝ
  | .uniform, u => low + u * (high - low)
  | .logUniform, u => Real.exp (Real.log low + u * (Real.log high - Real.log low))

/-- Modelled from the spec (§4.1): `inverse_transform` of a Real dimension,
the left inverse of `realTransform`. -/
noncomputable def realInverse (low high : ℚ) : Prior → ℝ → ℝ
  | .uniform, v => (v - low) / (high - low)
  | .logUniform, v => (Real.log v - Real.log low) / (Real.log high - Real.log low)

/-- Modelled from the spec (§4.1): Integer transform
`low + floor(u*(high-low+1))`, clamped to `high` at the u = 1 boundary. -/
def intTransform (low high : ℤ) (u : ℚ) : ℤ :=
  min high (low + ⌊u * ((high : ℚ) - low + 1)⌋)

/-- Modelled from the spec (§4.1): Categorical bin index `floor(u * k)`
for `k` categories. -/
def catIndex (k : ℕ) (u : ℚ) : ℕ :=
  (⌊u * (k : ℚ)⌋).toNat

/-- Modelled from the spec (§4.1): Categorical (uniform) transform:
`categories[floor(u*len(categories))]`. -/
def catTransform (cats : List String) (u : ℚ) : String :=
  cats.getD (catIndex cats.length u) ""

/-- Modelled from the spec (§4.1): `Dimension.transform`, mapping a uniform
variate u in [0,1) to a concrete in-domain value. -/
noncomputable def Dim.transform : Dim → ℚ → Value
  | .real lo hi p, u => .realVal (realTransform lo hi p u)
  | .integer lo hi, u => .intVal (intTransform lo hi u)
  | .categorical cats, u => .catVal (catTransform cats u)

/-- Modelled from the spec (§3, §4.1): construction-time invariants of each
Dimension variant: `low < high` (and `0 < low` under log-uniform) for Real,
`low ≤ high` for Integer, non-empty unique labels for Categorical. -/
def Dim.valid : Dim → Prop
  | .real lo hi p => lo < hi ∧ (p = .logUniform → 0 < lo)
  | .integer lo hi => lo ≤ hi
  | .categorical cats => cats ≠ [] ∧ cats.Nodup

instance (d : Dim) : Decidable d.valid := by
  cases d <;> unfold Dim.valid <;> infer_instance

/-- Modelled from the spec (§7): configuration errors are raised at
construction time. -/
inductive SpaceError
  | configurationError
deriving DecidableEq

/-- Modelled from the spec (§7): invalid-argument errors (non-positive
sample counts) are raised at the start of a sampling call. -/
inductive SampleError
  | invalidArgument
deriving DecidableEq

/-- Modelled from the spec (§4.1): Real dimension constructor, failing with
a ConfigurationError on invalid bounds or non-positive low under
log-uniform. -/
def mkReal (lo hi : ℚ) (p : Prior) : Except SpaceError Dim :=
  if (Dim.real lo hi p).valid then .ok (.real lo hi p) else .error .configurationError

/-- Modelled from the spec (§4.1): Integer dimension constructor. -/
def mkInteger (lo hi : ℤ) : Except SpaceError Dim :=
  if (Dim.integer lo hi).valid then .ok (.integer lo hi) else .error .configurationError

/-- Modelled from the spec (§4.1): Categorical dimension constructor. -/
def mkCategorical (cats : List String) : Except SpaceError Dim :=
  if (Dim.categorical cats).valid then .ok (.categorical cats) else .error .configurationError

/-- Modelled from the spec (§4.2): Space constructor; validates every
Dimension and rejects an empty dimension sequence with a
ConfigurationError. -/
def mkSpace (dims : List Dim) : Except SpaceError (List Dim) :=
  if dims ≠ [] ∧ ∀ d ∈ dims, d.valid then .ok dims else .error .configurationError

/-- Modelled from the spec (§3 "RNG State"): the random-number generator is
an internally owned source of uniform variates in [0,1); the concrete
mixing function is unspecified by the spec, so a fixed integer mixing
modulo 2^32 stands in for it. -/
def mix (seed c : ℕ) : ℕ :=
  (seed * 2654435761 + c * 1664525 + 1013904223) % 4294967296

/-- The RNG's stream of uniform variates in [0,1): variate number `c` of
the generator seeded with `seed`. -/
def uStream (seed : ℕ) (c : ℕ) : ℚ :=
  (mix seed c : ℚ) / 4294967296

/-- Draw a uniform integer index below `len` from variate `c`:
`floor(u * len)`. -/
def drawIdx (seed c len : ℕ) : ℕ :=
  (⌊uStream seed c * (len : ℚ)⌋).toNat

theorem mix_lt (seed c : ℕ) : mix seed c < 4294967296 :=
  Nat.mod_lt _ (by norm_num)

theorem uStream_nonneg (seed c : ℕ) : 0 ≤ uStream seed c := by
  unfold uStream
  positivity

theorem uStream_lt_one (seed c : ℕ) : uStream seed c < 1 := by
  unfold uStream
  rw [div_lt_one (by norm_num)]
  exact_mod_cast mix_lt seed c

theorem drawIdx_lt (seed c : ℕ) {len : ℕ} (h : 0 < len) : drawIdx seed c len < len := by
  unfold drawIdx
  have h1 : uStream seed c * (len : ℚ) < len := by
    have := uStream_lt_one seed c
    have hl : (0 : ℚ) < len := by exact_mod_cast h
    nlinarith
  have h2 : ⌊uStream seed c * (len : ℚ)⌋ < (len : ℤ) := by
    apply Int.floor_lt.mpr
    exact_mod_cast h1
  omega

/-- Modelled from the spec (§4.4 step 3, §9): in-place random permutation
of a list driven by the sampler's RNG (Fisher–Yates style: repeatedly draw
an index into the remaining elements and emit that element). -/
def shuffle (seed : ℕ) : (c : ℕ) → List α → List α
  | _, [] => []
  | c, x :: xs =>
    have hi : drawIdx seed c (x :: xs).length < (x :: xs).length :=
      drawIdx_lt seed c (by simp)
    (x :: xs).get ⟨drawIdx seed c (x :: xs).length, hi⟩ ::
      shuffle seed (c + 1) ((x :: xs).eraseIdx (drawIdx seed c (x :: xs).length))
termination_by _ l => l.length
decreasing_by
  have := List.length_eraseIdx_add_one hi
  omega

/-- Modelled from the spec (§4.4 step 1 and 2, default placement): the `n`
stratum midpoints (k + 1/2)/n of the `n` equal-width strata of [0,1). -/
def midpoints (n : ℕ) : List ℚ :=
  (List.range n).map (fun k : ℕ => (2 * (k : ℚ) + 1) / (2 * (n : ℚ)))

/-- Dimension at position `j` of a Space (positional access). -/
def dimAt (dims : List Dim) (j : ℕ) : Dim :=
  dims.getD j (.integer 0 0)

/-- Value at position `j` of a sample point. -/
def valueAt (p : List Value) (j : ℕ) : Value :=
  p.getD j (.intVal 0)

/-- Point number `i` of a sampling result. -/
def pointAt (pts : List (List Value)) (i : ℕ) : List Value :=
  pts.getD i []

/-- The `j`-th column of a sampling result: the values the output points
assign to dimension `j`. -/
def column (pts : List (List Value)) (j : ℕ) : List Value :=
  pts.map (fun p => valueAt p j)

/-- Modelled from the spec (§4.4): one dimension's LHS values: transform
the stratum midpoints, then permute them with the sampler's RNG,
independently per dimension (dimension `j` consumes its own block of RNG
draws starting at counter `j * n`). -/
noncomputable def lhsColumn (d : Dim) (n : ℕ) (seed j : ℕ) : List Value :=
  shuffle seed (j * n) ((midpoints n).map d.transform)

/-- Modelled from the spec (§4.4): the LHS point set: point `i` takes, for
every dimension `j`, the `i`-th entry of dimension `j`'s independently
permuted column. -/
noncomputable def lhsPoints (dims : List Dim) (n : ℕ) (seed : ℕ) : List (List Value) :=
  (List.range n).map (fun i =>
    (List.range dims.length).map (fun j => valueAt (lhsColumn (dimAt dims j) n seed j) i))

/-- Modelled from the spec (§4.3): random sampling: for each of `n` points
and each dimension independently, draw one uniform variate from the stream
and apply the dimension's transform. -/
noncomputable def rvsPoints (dims : List Dim) (n : ℕ) (stream : ℕ → ℚ) : List (List Value) :=
  (List.range n).map (fun i =>
    (List.range dims.length).map (fun j =>
      (dimAt dims j).transform (stream (i * dims.length + j))))

/-- Modelled from the spec (§3, §4.3, §6): `Space.rvs(n_samples,
random_state)` as a call against the process entropy state `g` (a position
in the never-reset process stream `uStream 0`).  `n ≤ 0` fails with
InvalidArgument before any RNG consumption; an explicit seed initializes a
fresh generator from the seed and leaves the process stream untouched;
`random_state=None` consumes `n * dims` variates of the process stream,
advancing it. -/
noncomputable def rvsCall (dims : List Dim) (n : ℤ) (randomState : Option ℕ) (g : ℕ) :
    Except SampleError (List (List Value)) × ℕ :=
  if n ≤ 0 then (.error .invalidArgument, g)
  else
    match randomState with
    | some s => (.ok (rvsPoints dims n.toNat (uStream (s + 1))), g)
    | none => (.ok (rvsPoints dims n.toNat (fun c => uStream 0 (g + c))), g + n.toNat * dims.length)

/-- Modelled from the spec (§4.4, §6) and the notebook
`sampling_control_parameters.ipynb`: `Space.lhs(n, seed)`.  `n ≤ 0` fails
with InvalidArgument before any RNG consumption.  An explicit seed
initializes a fresh generator from the seed.  With `seed=None` the call is
pseudo-random, not entropy-driven: the notebook prints two successive
unseeded `lhs(n=5)` calls with identical outputs and states that "Latin
hypercube sampling is pseudo-random", so the unseeded call is modelled with
a fixed default generator and does not touch the process entropy state. -/
noncomputable def lhsCall (dims : List Dim) (n : ℤ) (seed : Option ℕ) (g : ℕ) :
    Except SampleError (List (List Value)) × ℕ :=
  if n ≤ 0 then (.error .invalidArgument, g)
  else
    match seed with
    | some s => (.ok (lhsPoints dims n.toNat (s + 1)), g)
    | none => (.ok (lhsPoints dims n.toNat 0), g)

/-- A runtime value of the shorthand construction language: Python float,
int or string label. -/
inductive PyVal
  | float (x : ℚ)
  | int (z : ℤ)
  | str (s : String)
deriving DecidableEq

/-- Whether a shorthand entry element is a string label. -/
def PyVal.isStr : PyVal → Bool
  | .str _ => true
  | _ => false

/-- The label carried by a string shorthand element. -/
def PyVal.label : PyVal → String
  | .str s => s
  | _ => ""

/-- Modelled from the spec (§6): dimension inference from a shorthand
entry: a two-element integer list becomes Integer(low, high); a two-element
numeric list (with a float) becomes Real(low, high) with uniform prior; a
non-empty list of non-numeric labels becomes Categorical(labels). -/
def inferDim : List PyVal → Option Dim
  | [.int a, .int b] => some (.integer a b)
  | [.float a, .float b] => some (.real a b .uniform)
  | [.int a, .float b] => some (.real (a : ℚ) b .uniform)
  | [.float a, .int b] => some (.real a (b : ℚ) .uniform)
  | items =>
    if items ≠ [] ∧ items.all PyVal.isStr then
      some (.categorical (items.map PyVal.label))
    else none

/-- Modelled from the spec (§6): Space construction from the shorthand list
form: infer each entry's dimension, then validate the space. -/
def mkSpaceShorthand (entries : List (List PyVal)) : Except SpaceError (List Dim) :=
  match entries.mapM inferDim with
  | none => .error .configurationError
  | some dims => mkSpace dims

/-- A value has the native runtime type of its dimension variant (§3, §6):
float for Real, int for Integer, label for Categorical. -/
def variantMatches : Dim → Value → Prop
  | .real _ _ _, .realVal _ => True
  | .integer _ _, .intVal _ => True
  | .categorical _, .catVal _ => True
  | _, _ => False

/-- The domain-membership property claimed for sampled values: a Real
dimension with uniform prior yields a real value in [low, high]; an Integer
dimension yields an integer value in [low, high]. -/
def inDomain : Dim → Value → Prop
  | .real lo hi .uniform, v => ∃ x, v = .realVal x ∧ (lo : ℝ) ≤ x ∧ x ≤ (hi : ℝ)
  | .integer lo hi, v => ∃ z, v = .intVal z ∧ lo ≤ z ∧ z ≤ hi
  | _, _ => True

/-- The number of points whose categorical value is the label `lab`. -/
def countLabel (lab : String) (vs : List Value) : ℕ :=
  vs.countP (fun v => match v with | .catVal s => s == lab | _ => false)

/-- The number of the `n` stratum midpoints that fall into categorical bin
`c` out of `kc` equal bins: midpoint `k` lands in bin
`floor(((2k+1)/(2n)) * kc) = (2k+1)*kc / (2n)`. -/
def catCount (n kc c : ℕ) : ℕ :=
  (List.range n).countP (fun k => decide ((2 * k + 1) * kc / (2 * n) = c))

theorem get_cons_eraseIdx_perm (l : List α) (i : ℕ) (h : i < l.length) :
    (l.get ⟨i, h⟩ :: l.eraseIdx i).Perm l := by
  rw [List.eraseIdx_eq_take_drop_succ]
  conv =>
    rhs
    rw [← List.take_append_drop i l, ← List.getElem_cons_drop l i h]
  exact List.perm_middle.symm.trans (by rw [List.get_eq_getElem])

theorem shuffle_perm (seed : ℕ) : ∀ (c : ℕ) (l : List α), (shuffle seed c l).Perm l
  | _, [] => by rw [shuffle]
  | c, x :: xs => by
    rw [shuffle]
    have hi : drawIdx seed c (x :: xs).length < (x :: xs).length :=
      drawIdx_lt seed c (by simp)
    have hlen := List.length_eraseIdx_add_one hi
    have ih := shuffle_perm seed (c + 1) ((x :: xs).eraseIdx (drawIdx seed c (x :: xs).length))
    exact (ih.cons _).trans (get_cons_eraseIdx_perm _ _ hi)
termination_by _ l => l.length
decreasing_by omega

theorem shuffle_length (seed c : ℕ) (l : List α) : (shuffle seed c l).length = l.length :=
  (shuffle_perm seed c l).length_eq

theorem midpoints_length (n : ℕ) : (midpoints n).length = n := by
  unfold midpoints
  rw [List.length_map, List.length_range]

theorem midpoint_nonneg {n k : ℕ} (hk : k < n) :
    0 ≤ (2 * (k : ℚ) + 1) / (2 * (n : ℚ)) := by
  have hn : (0 : ℚ) < n := by exact_mod_cast Nat.zero_lt_of_lt hk
  positivity

theorem midpoint_lt_one {n k : ℕ} (hk : k < n) :
    (2 * (k : ℚ) + 1) / (2 * (n : ℚ)) < 1 := by
  have hn : (0 : ℚ) < n := by exact_mod_cast Nat.zero_lt_of_lt hk
  rw [div_lt_one (by positivity)]
  have : (k : ℚ) + 1 ≤ n := by exact_mod_cast hk
  linarith

theorem mem_midpoints {n : ℕ} {u : ℚ} (hu : u ∈ midpoints n) : 0 ≤ u ∧ u < 1 := by
  simp only [midpoints, List.mem_map, List.mem_range] at hu
  obtain ⟨k, hk, rfl⟩ := hu
  exact ⟨midpoint_nonneg hk, midpoint_lt_one hk⟩

theorem map_getD_range (L : List α) (dflt : α) {n : ℕ} (h : L.length = n) :
    (List.range n).map (fun i => L.getD i dflt) = L := by
  apply List.ext_getElem
  · simp [h]
  · intro i h1 h2
    simp only [List.getElem_map, List.getElem_range]
    rw [List.getD_eq_getElem L dflt h2]

theorem lhsColumn_perm (d : Dim) (n seed j : ℕ) :
    (lhsColumn d n seed j).Perm ((midpoints n).map d.transform) :=
  shuffle_perm seed (j * n) _

theorem lhsColumn_length (d : Dim) (n seed j : ℕ) : (lhsColumn d n seed j).length = n := by
  rw [(lhsColumn_perm d n seed j).length_eq, List.length_map, midpoints_length]

theorem column_lhsPoints (dims : List Dim) (n seed : ℕ) {j : ℕ} (hj : j < dims.length) :
    column (lhsPoints dims n seed) j = lhsColumn (dimAt dims j) n seed j := by
  unfold column lhsPoints
  rw [List.map_map]
  have step : ∀ i : ℕ,
      valueAt ((List.range dims.length).map
        (fun j2 => valueAt (lhsColumn (dimAt dims j2) n seed j2) i)) j =
      valueAt (lhsColumn (dimAt dims j) n seed j) i := by
    intro i
    unfold valueAt
    rw [List.getD_eq_getElem _ _ (by simpa using hj), List.getElem_map, List.getElem_range]
  calc (List.range n).map (fun i => valueAt ((List.range dims.length).map
          (fun j2 => valueAt (lhsColumn (dimAt dims j2) n seed j2) i)) j)
      = (List.range n).map (fun i => valueAt (lhsColumn (dimAt dims j) n seed j) i) := by
        exact List.map_congr_left (fun i _ => step i)
    _ = lhsColumn (dimAt dims j) n seed j :=
        map_getD_range _ _ (lhsColumn_length (dimAt dims j) n seed j)

theorem transform_variant (d : Dim) (u : ℚ) : variantMatches d (d.transform u) := by
  cases d <;> simp [Dim.transform, variantMatches]

theorem catIndex_lt {k : ℕ} (hk : 0 < k) {u : ℚ} (h0 : 0 ≤ u) (h1 : u < 1) :
    catIndex k u < k := by
  unfold catIndex
  have h2 : u * (k : ℚ) < k := by
    have hkq : (0 : ℚ) < k := by exact_mod_cast hk
    nlinarith
  have h3 : ⌊u * (k : ℚ)⌋ < (k : ℤ) := Int.floor_lt.mpr (by exact_mod_cast h2)
  omega

theorem intTransform_bounds {lo hi : ℤ} (hlh : lo ≤ hi) {u : ℚ} (h0 : 0 ≤ u) (h1 : u ≤ 1) :
    lo ≤ intTransform lo hi u ∧ intTransform lo hi u ≤ hi := by
  unfold intTransform
  constructor
  · have hf : (0 : ℤ) ≤ ⌊u * ((hi : ℚ) - lo + 1)⌋ := by
      apply Int.floor_nonneg.mpr
      have : (0 : ℚ) ≤ (hi : ℚ) - lo + 1 := by
        have : (lo : ℚ) ≤ (hi : ℚ) := by exact_mod_cast hlh
        linarith
      positivity
    omega
  · exact min_le_left _ _

theorem transform_inDomain {d : Dim} (hd : d.valid) {u : ℚ} (h0 : 0 ≤ u) (h1 : u < 1) :
    inDomain d (d.transform u) := by
  cases d with
  | real lo hi p =>
    cases p with
    | uniform =>
      obtain ⟨hlh, -⟩ := hd
      refine ⟨realTransform lo hi .uniform u, rfl, ?_, ?_⟩
      · simp only [realTransform]
        have hlhr : (lo : ℝ) ≤ (hi : ℝ) := by exact_mod_cast le_of_lt hlh
        have hur : (0 : ℝ) ≤ ((u : ℝ) : ℝ) := by exact_mod_cast h0
        nlinarith
      · simp only [realTransform]
        have hlhr : (lo : ℝ) ≤ (hi : ℝ) := by exact_mod_cast le_of_lt hlh
        have hur : ((u : ℝ) : ℝ) ≤ 1 := by
          have h2 : u ≤ 1 := le_of_lt h1
          exact_mod_cast h2
        nlinarith
    | logUniform => trivial
  | integer lo hi =>
    exact ⟨intTransform lo hi u, rfl, intTransform_bounds hd h0 (le_of_lt h1)⟩
  | categorical cats => trivial

theorem rvsPoints_length (dims : List Dim) (m : ℕ) (stream : ℕ → ℚ) :
    (rvsPoints dims m stream).length = m := by
  unfold rvsPoints
  rw [List.length_map, List.length_range]

theorem lhsPoints_length (dims : List Dim) (m seed : ℕ) :
    (lhsPoints dims m seed).length = m := by
  unfold lhsPoints
  rw [List.length_map, List.length_range]

theorem rvsCall_ok_shape {dims : List Dim} {n : ℤ} {seed : Option ℕ} {g : ℕ}
    {pts : List (List Value)}
    (h : (rvsCall dims n seed g).fst = .ok pts) :
    0 < n ∧ ∃ stream : ℕ → ℚ, (∀ c, 0 ≤ stream c ∧ stream c < 1) ∧
      pts = rvsPoints dims n.toNat stream := by
  by_cases hn : n ≤ 0
  · simp [rvsCall, hn] at h
  · refine ⟨by omega, ?_⟩
    cases seed with
    | some s =>
      simp only [rvsCall, hn, if_false] at h
      exact ⟨uStream (s + 1), fun c => ⟨uStream_nonneg _ c, uStream_lt_one _ c⟩,
        Except.ok.inj h.symm⟩
    | none =>
      simp only [rvsCall, hn, if_false] at h
      exact ⟨fun c => uStream 0 (g + c), fun c => ⟨uStream_nonneg _ _, uStream_lt_one _ _⟩,
        Except.ok.inj h.symm⟩

theorem lhsCall_ok_shape {dims : List Dim} {n : ℤ} {seed : Option ℕ} {g : ℕ}
    {pts : List (List Value)}
    (h : (lhsCall dims n seed g).fst = .ok pts) :
    0 < n ∧ ∃ s2 : ℕ, pts = lhsPoints dims n.toNat s2 := by
  by_cases hn : n ≤ 0
  · simp [lhsCall, hn] at h
  · refine ⟨by omega, ?_⟩
    cases seed with
    | some s =>
      simp only [lhsCall, hn, if_false] at h
      exact ⟨s + 1, Except.ok.inj h.symm⟩
    | none =>
      simp only [lhsCall, hn, if_false] at h
      exact ⟨0, Except.ok.inj h.symm⟩

theorem rvsPoints_value {dims : List Dim} {m : ℕ} {stream : ℕ → ℚ}
    (hst : ∀ c, 0 ≤ stream c ∧ stream c < 1)
    {p : List Value} (hp : p ∈ rvsPoints dims m stream) {j : ℕ} (hj : j < dims.length) :
    ∃ u : ℚ, 0 ≤ u ∧ u < 1 ∧ valueAt p j = (dimAt dims j).transform u := by
  unfold rvsPoints at hp
  obtain ⟨i, -, rfl⟩ := List.mem_map.mp hp
  refine ⟨stream (i * dims.length + j), (hst _).1, (hst _).2, ?_⟩
  unfold valueAt
  rw [List.getD_eq_getElem _ _ (by simpa using hj), List.getElem_map, List.getElem_range]

theorem lhsPoints_value {dims : List Dim} {m seed : ℕ}
    {p : List Value} (hp : p ∈ lhsPoints dims m seed) {j : ℕ} (hj : j < dims.length) :
    ∃ u : ℚ, 0 ≤ u ∧ u < 1 ∧ valueAt p j = (dimAt dims j).transform u := by
  unfold lhsPoints at hp
  obtain ⟨i, hi, rfl⟩ := List.mem_map.mp hp
  rw [List.mem_range] at hi
  have hvj : valueAt ((List.range dims.length).map
      (fun j2 => valueAt (lhsColumn (dimAt dims j2) m seed j2) i)) j =
      valueAt (lhsColumn (dimAt dims j) m seed j) i := by
    unfold valueAt
    rw [List.getD_eq_getElem _ _ (by simpa using hj), List.getElem_map, List.getElem_range]
  have hcol : valueAt (lhsColumn (dimAt dims j) m seed j) i ∈ lhsColumn (dimAt dims j) m seed j := by
    unfold valueAt
    rw [List.getD_eq_getElem _ _ (by rw [lhsColumn_length]; exact hi)]
    exact List.getElem_mem _
  have hmem := (lhsColumn_perm (dimAt dims j) m seed j).mem_iff.mp hcol
  obtain ⟨u, hu, hval⟩ := List.mem_map.mp hmem
  obtain ⟨hu0, hu1⟩ := mem_midpoints hu
  exact ⟨u, hu0, hu1, by rw [hvj, hval]⟩

theorem call_value {dims : List Dim} {n : ℤ} {seed : Option ℕ} {g : ℕ}
    {pts : List (List Value)}
    (h : (rvsCall dims n seed g).fst = .ok pts ∨ (lhsCall dims n seed g).fst = .ok pts)
    {p : List Value} (hp : p ∈ pts) {j : ℕ} (hj : j < dims.length) :
    ∃ u : ℚ, 0 ≤ u ∧ u < 1 ∧ valueAt p j = (dimAt dims j).transform u := by
  rcases h with h | h
  · obtain ⟨-, stream, hst, rfl⟩ := rvsCall_ok_shape h
    exact rvsPoints_value hst hp hj
  · obtain ⟨-, s2, rfl⟩ := lhsCall_ok_shape h
    exact lhsPoints_value hp hj

theorem lhs_col_multiset (dims : List Dim) (m seed : ℕ) {j : ℕ} (hj : j < dims.length) :
    (column (lhsPoints dims m seed) j : Multiset Value) =
      ((midpoints m).map (dimAt dims j).transform : Multiset Value) := by
  rw [column_lhsPoints dims m seed hj]
  exact Multiset.coe_eq_coe.mpr (lhsColumn_perm (dimAt dims j) m seed j)

theorem dimAt_mem {dims : List Dim} {j : ℕ} (hj : j < dims.length) : dimAt dims j ∈ dims := by
  unfold dimAt
  rw [List.getD_eq_getElem _ _ hj]
  exact List.getElem_mem _

theorem pointAt_mem {pts : List (List Value)} {i : ℕ} (hi : i < pts.length) :
    pointAt pts i ∈ pts := by
  unfold pointAt
  rw [List.getD_eq_getElem _ _ hi]
  exact List.getElem_mem _

/-- The notebook's example space `Space([[1.,10.],[1,10],["cat","dog","elephant"]])`. -/
def exampleDims : List Dim :=
  [.real 1 10 .uniform, .integer 1 10, .categorical ["cat", "dog", "elephant"]]

/-- C1: for every Space and every n > 0, `lhs(n)` with the default
(non-jittered) placement produces, for each dimension, exactly the multiset
of transformed stratum midpoints transform((k + 1/2)/n), k = 0..n-1 —
stratification is exact. -/
theorem C1_lhs_exact_stratification {dims : List Dim} {n : ℤ} {seed : Option ℕ} {g : ℕ}
    {pts : List (List Value)} (h : (lhsCall dims n seed g).fst = .ok pts)
    {j : ℕ} (hj : j < dims.length) :
    (column pts j : Multiset Value) =
      ((midpoints n.toNat).map (dimAt dims j).transform : Multiset Value) := by
  obtain ⟨-, s2, rfl⟩ := lhsCall_ok_shape h
  exact lhs_col_multiset dims n.toNat s2 hj

theorem C1_witness :
    (column (lhsPoints exampleDims 5 0) 0 : Multiset Value) =
      ((midpoints 5).map (dimAt exampleDims 0).transform : Multiset Value) := by
  have h : (lhsCall exampleDims 5 none 0).fst = .ok (lhsPoints exampleDims 5 0) := rfl
  exact C1_lhs_exact_stratification h (by decide)

/-- C2: for every Space, every n and every explicit seed S, the output of
`rvs(n, random_state=S)` and of `lhs(n, seed=S)` does not depend on the
ambient process entropy state: the seeded RNG is re-initialized fresh from
S at the start of each call, so two separate calls return identical output
sequences. -/
theorem C2_seeded_calls_reproducible (dims : List Dim) (n : ℤ) (s : ℕ) (g1 g2 : ℕ) :
    (rvsCall dims n (some s) g1).fst = (rvsCall dims n (some s) g2).fst ∧
    (lhsCall dims n (some s) g1).fst = (lhsCall dims n (some s) g2).fst := by
  by_cases hn : n ≤ 0 <;> simp [rvsCall, lhsCall, hn]

/-- C3 (counterexample): the claim asserts that any two successive unseeded
sampling calls produce different output sequences; but two successive
unseeded `lhs(5)` calls on the notebook's space return the same output (the
notebook prints identical first and second unseeded LHS samples: unseeded
LHS is pseudo-random, not entropy-driven). -/
theorem C3_counterexample :
    (lhsCall exampleDims 5 none (lhsCall exampleDims 5 none 0).snd).fst =
      (lhsCall exampleDims 5 none 0).fst := rfl

/-- C3 (amended): unseeded `rvs` draws from the continuously advancing
process entropy source — each call with n > 0 on a non-empty Space strictly
advances the entropy state, consuming n·dims fresh variates, so successive
unseeded rvs calls are not replays — while unseeded `lhs` is pseudo-random:
successive unseeded lhs calls with the same arguments return identical
output sequences. -/
theorem C3_unseeded_entropy_behaviour (dims : List Dim) (n : ℤ) (g : ℕ)
    (hn : 0 < n) (hd : dims ≠ []) :
    ((rvsCall dims n none g).snd = g + n.toNat * dims.length ∧
      g < (rvsCall dims n none g).snd) ∧
    ∀ g2 : ℕ, (lhsCall dims n none g2).fst = (lhsCall dims n none g).fst := by
  have hn2 : ¬ n ≤ 0 := by omega
  refine ⟨⟨by simp [rvsCall, hn2], ?_⟩, fun g2 => by simp [lhsCall, hn2]⟩
  simp only [rvsCall, hn2, if_false]
  have hp : 0 < n.toNat * dims.length :=
    Nat.mul_pos (by omega) (List.length_pos.mpr hd)
  omega

theorem C3_witness :
    ((rvsCall exampleDims 5 none 0).snd = 0 + 15 ∧ 0 < (rvsCall exampleDims 5 none 0).snd) ∧
    (lhsCall exampleDims 5 none 7).fst = (lhsCall exampleDims 5 none 0).fst := by
  have h := C3_unseeded_entropy_behaviour exampleDims 5 0 (by norm_num) (by decide)
  exact ⟨⟨h.1.1, h.1.2⟩, h.2 7⟩

/-- C4: two `lhs(n)` calls that differ in seed (or in seededness) differ
only in the joint assignment of values to sample indices: for every
dimension, the multiset of values in that dimension's positions is
identical across the two calls. -/
theorem C4_lhs_value_sets_seed_invariant {dims : List Dim} {n : ℤ}
    {o1 o2 : Option ℕ} {g1 g2 : ℕ} {pts1 pts2 : List (List Value)}
    (h1 : (lhsCall dims n o1 g1).fst = .ok pts1)
    (h2 : (lhsCall dims n o2 g2).fst = .ok pts2)
    {j : ℕ} (hj : j < dims.length) :
    (column pts1 j : Multiset Value) = (column pts2 j : Multiset Value) := by
  obtain ⟨-, s1, rfl⟩ := lhsCall_ok_shape h1
  obtain ⟨-, s2, rfl⟩ := lhsCall_ok_shape h2
  rw [lhs_col_multiset dims _ s1 hj, lhs_col_multiset dims _ s2 hj]

theorem C4_witness :
    (column (lhsPoints exampleDims 5 0) 0 : Multiset Value) =
      (column (lhsPoints exampleDims 5 3) 0 : Multiset Value) := by
  have h1 : (lhsCall exampleDims 5 none 0).fst = .ok (lhsPoints exampleDims 5 0) := rfl
  have h2 : (lhsCall exampleDims 5 (some 2) 0).fst = .ok (lhsPoints exampleDims 5 3) := rfl
  exact C4_lhs_value_sets_seed_invariant h1 h2 (by decide)

/-- C5: for every Integer dimension with low ≤ high and u in [0,1],
transform(u) = low + floor(u*(high-low+1)), clamped to high at the u = 1
boundary, and the result is an integer in [low, high]; in particular
Integer(1,10).transform(0.95) = 10. -/
theorem C5_integer_transform :
    (∀ (lo hi : ℤ) (u : ℚ), lo ≤ hi → 0 ≤ u → u ≤ 1 →
      (lo ≤ intTransform lo hi u ∧ intTransform lo hi u ≤ hi) ∧
      (u < 1 → intTransform lo hi u = lo + ⌊u * ((hi : ℚ) - lo + 1)⌋) ∧
      (u = 1 → intTransform lo hi u = hi)) ∧
    intTransform 1 10 (19 / 20) = 10 := by
  constructor
  · intro lo hi u hlh h0 h1
    refine ⟨intTransform_bounds hlh h0 h1, ?_, ?_⟩
    · intro hu1
      unfold intTransform
      have hq : (lo : ℚ) ≤ (hi : ℚ) := by exact_mod_cast hlh
      have hlt : u * ((hi : ℚ) - lo + 1) < ((hi - lo + 1 : ℤ) : ℚ) := by
        push_cast
        nlinarith
      have hfl : ⌊u * ((hi : ℚ) - lo + 1)⌋ < hi - lo + 1 := Int.floor_lt.mpr hlt
      omega
    · intro hu1
      subst hu1
      unfold intTransform
      have hfl : ⌊(1 : ℚ) * ((hi : ℚ) - lo + 1)⌋ = hi - lo + 1 := by
        rw [one_mul]
        rw [show ((hi : ℚ) - lo + 1) = ((hi - lo + 1 : ℤ) : ℚ) by push_cast; ring]
        exact Int.floor_intCast _
      omega
  · unfold intTransform
    have hfl : ⌊(19 / 20 : ℚ) * ((10 : ℚ) - 1 + 1)⌋ = 9 := by
      rw [show (19 / 20 : ℚ) * ((10 : ℚ) - 1 + 1) = 19 / 2 by norm_num]
      rw [Int.floor_eq_iff]
      norm_num
    rw [show ((10 : ℤ) : ℚ) = (10 : ℚ) by norm_num, show ((1 : ℤ) : ℚ) = (1 : ℚ) by norm_num]
    rw [hfl]
    norm_num

theorem C5_witness :
    ((1 : ℤ) ≤ intTransform 1 10 (19 / 20) ∧ intTransform 1 10 (19 / 20) ≤ 10) ∧
    intTransform 1 10 (19 / 20) = 10 :=
  ⟨(C5_integer_transform.1 1 10 (19 / 20) (by norm_num) (by norm_num) (by norm_num)).1,
    C5_integer_transform.2⟩

/-- C6: for every valid Space, every value produced by `rvs` or `lhs` lies
inside its dimension's domain: a Real dimension with uniform prior yields a
value in [low, high] and an Integer dimension an integer in [low, high]. -/
theorem C6_samples_in_bounds {dims : List Dim} (hv : ∀ d ∈ dims, d.valid)
    {n : ℤ} {seed : Option ℕ} {g : ℕ} {pts : List (List Value)}
    (h : (rvsCall dims n seed g).fst = .ok pts ∨ (lhsCall dims n seed g).fst = .ok pts)
    {p : List Value} (hp : p ∈ pts) {j : ℕ} (hj : j < dims.length) :
    inDomain (dimAt dims j) (valueAt p j) := by
  obtain ⟨u, h0, h1, heq⟩ := call_value h hp hj
  rw [heq]
  exact transform_inDomain (hv _ (dimAt_mem hj)) h0 h1

theorem C6_witness :
    inDomain (dimAt exampleDims 0) (valueAt (pointAt (lhsPoints exampleDims 5 0) 0) 0) := by
  have h : (lhsCall exampleDims 5 none 0).fst = .ok (lhsPoints exampleDims 5 0) := rfl
  have hm : pointAt (lhsPoints exampleDims 5 0) 0 ∈ lhsPoints exampleDims 5 0 :=
    pointAt_mem (by rw [lhsPoints_length]; norm_num)
  exact C6_samples_in_bounds (by decide) (Or.inr h) hm (by decide)

/-- C7: for every valid Real dimension (uniform or log-uniform prior) and
every u in [0,1), inverse_transform(transform(u)) = u exactly in the
model. -/
theorem C7_real_transform_left_inverse (lo hi : ℚ) (p : Prior) (u : ℝ)
    (hlh : lo < hi) (hlog : p = .logUniform → 0 < lo) (h0 : 0 ≤ u) (h1 : u < 1) :
    realInverse lo hi p (realTransform lo hi p u) = u := by
  cases p with
  | uniform =>
    simp only [realTransform, realInverse]
    have hne : (hi : ℝ) - lo ≠ 0 := by
      have hc : (lo : ℝ) < hi := by exact_mod_cast hlh
      exact sub_ne_zero_of_ne (ne_of_gt hc)
    rw [div_eq_iff hne]
    ring
  | logUniform =>
    have hlo : 0 < lo := hlog rfl
    simp only [realTransform, realInverse]
    rw [Real.log_exp]
    have hne : Real.log hi - Real.log lo ≠ 0 := by
      have h2 : Real.log lo < Real.log hi := by
        apply Real.log_lt_log
        · exact_mod_cast hlo
        · exact_mod_cast hlh
      exact sub_ne_zero_of_ne (ne_of_gt h2)
    rw [div_eq_iff hne]
    ring

theorem C7_witness :
    realInverse 1 10 .uniform (realTransform 1 10 .uniform (1 / 2)) = 1 / 2 :=
  C7_real_transform_left_inverse 1 10 .uniform (1 / 2) (by norm_num)
    (fun _ => by norm_num) (by norm_num) (by norm_num)

/-- The index of the first stratum-midpoint that can reach categorical bin
`c`: midpoints 0..binBound-1 land strictly below bin `c`. -/
def binBound (n kc c : ℕ) : ℕ :=
  (2 * n * c + kc - 1) / (2 * kc)

theorem lt_binBound_iff {n kc c : ℕ} (hkc : 0 < kc) (k : ℕ) :
    k < binBound n kc c ↔ (2 * k + 1) * kc < 2 * n * c := by
  unfold binBound
  rw [Nat.lt_iff_add_one_le, Nat.le_div_iff_mul_le (show 0 < 2 * kc by omega)]
  have e1 : (k + 1) * (2 * kc) = 2 * (kc * k) + 2 * kc := by ring
  have e2 : (2 * k + 1) * kc = 2 * (kc * k) + kc := by ring
  rw [e1, e2]
  omega

theorem binBound_mono {n kc : ℕ} (c : ℕ) : binBound n kc c ≤ binBound n kc (c + 1) := by
  apply Nat.div_le_div_right
  have h : 2 * n * c ≤ 2 * n * (c + 1) := Nat.mul_le_mul_left _ (Nat.le_succ c)
  omega

theorem binBound_le {n kc : ℕ} (hkc : 0 < kc) {c : ℕ} (hc : c ≤ kc) : binBound n kc c ≤ n := by
  unfold binBound
  have h1 : 2 * n * c ≤ 2 * n * kc := Nat.mul_le_mul_left _ hc
  have h2 : (2 * n * kc + kc - 1) / (2 * kc) = n := by
    rw [show 2 * n * kc + kc - 1 = 2 * kc * n + (kc - 1) by ring_nf; omega]
    rw [Nat.mul_add_div (by omega)]
    rw [Nat.div_eq_of_lt (by omega)]
    omega
  calc (2 * n * c + kc - 1) / (2 * kc)
      ≤ (2 * n * kc + kc - 1) / (2 * kc) := Nat.div_le_div_right (by omega)
    _ = n := h2

theorem countP_range_lt (n m : ℕ) :
    (List.range n).countP (fun k => decide (k < m)) = min n m := by
  induction n with
  | zero => simp
  | succ n ih =>
    rw [List.range_succ, List.countP_append, ih]
    by_cases h : n < m <;> simp [List.countP_cons, h] <;> omega

theorem countP_split (l : List α) (p q : α → Bool) :
    l.countP p = l.countP (fun a => p a && q a) + l.countP (fun a => p a && !q a) := by
  induction l with
  | nil => simp
  | cons x xs ih =>
    simp only [List.countP_cons, ih]
    cases hp : p x <;> cases hq : q x <;> simp <;> omega

theorem nat_div_eq_iff {a b c : ℕ} (hb : 0 < b) : a / b = c ↔ c * b ≤ a ∧ a < (c + 1) * b := by
  have h1 : c ≤ a / b ↔ c * b ≤ a := Nat.le_div_iff_mul_le hb
  have h2 : a / b < c + 1 ↔ a < (c + 1) * b := Nat.div_lt_iff_lt_mul hb
  omega

theorem catCount_eq_sub {n kc c : ℕ} (hn : 0 < n) (hkc : 0 < kc) (hc : c < kc) :
    catCount n kc c = binBound n kc (c + 1) - binBound n kc c := by
  unfold catCount
  have hiff : ∀ k : ℕ, ((2 * k + 1) * kc / (2 * n) = c) ↔
      (k < binBound n kc (c + 1) ∧ ¬ k < binBound n kc c) := by
    intro k
    rw [nat_div_eq_iff (show 0 < 2 * n by omega), lt_binBound_iff hkc, lt_binBound_iff hkc]
    have e1 : c * (2 * n) = 2 * n * c := by ring
    have e2 : (c + 1) * (2 * n) = 2 * n * (c + 1) := by ring
    rw [e1, e2]
    omega
  have hfun : (fun k => decide ((2 * k + 1) * kc / (2 * n) = c)) =
      (fun k => decide (k < binBound n kc (c + 1)) && !decide (k < binBound n kc c)) := by
    funext k
    rcases Nat.lt_or_ge k (binBound n kc (c + 1)) with h1 | h1 <;>
      rcases Nat.lt_or_ge k (binBound n kc c) with h2 | h2 <;>
      simp [h1, h2, hiff k, Nat.not_lt.mpr, decide_eq_true_eq] <;> omega
  rw [hfun]
  have hsplit := countP_split (List.range n)
    (fun k => decide (k < binBound n kc (c + 1))) (fun k => decide (k < binBound n kc c))
  have hand : (fun k => decide (k < binBound n kc (c + 1)) && decide (k < binBound n kc c)) =
      (fun k => decide (k < binBound n kc c)) := by
    funext k
    rcases Nat.lt_or_ge k (binBound n kc (c + 1)) with h1 | h1 <;>
      rcases Nat.lt_or_ge k (binBound n kc c) with h2 | h2 <;>
      simp [h1, h2]
    exact absurd (lt_of_lt_of_le h2 (binBound_mono c)) (Nat.not_lt.mpr (by omega))
  rw [hand, countP_range_lt, countP_range_lt] at hsplit
  have hb1 : binBound n kc (c + 1) ≤ n := binBound_le hkc (by omega)
  have hb2 : binBound n kc c ≤ n := binBound_le hkc (by omega)
  rw [min_eq_right hb1, min_eq_right hb2] at hsplit
  omega

theorem div_add_div_le (a b d : ℕ) (hd : 0 < d) : a / d + b / d ≤ (a + b) / d := by
  rw [Nat.le_div_iff_mul_le hd, Nat.add_mul]
  exact Nat.add_le_add (Nat.div_mul_le_self a d) (Nat.div_mul_le_self b d)

theorem div_add_le_succ (a b d : ℕ) (hd : 0 < d) : (a + b) / d ≤ a / d + b / d + 1 := by
  have h1 : a < a / d * d + d := Nat.lt_div_mul_add hd
  have h2 : b < b / d * d + d := Nat.lt_div_mul_add hd
  have h3 : (a + b) / d < a / d + b / d + 2 := by
    rw [Nat.div_lt_iff_lt_mul hd]
    calc a + b < (a / d * d + d) + (b / d * d + d) := by omega
      _ = (a / d + b / d + 2) * d := by ring
  omega

theorem catCount_low {n kc c : ℕ} (hn : 0 < n) (hkc : 0 < kc) (hc : c < kc) :
    n / kc ≤ catCount n kc c := by
  rw [catCount_eq_sub hn hkc hc]
  have hkey : binBound n kc c + n / kc ≤ binBound n kc (c + 1) := by
    unfold binBound
    have h2n : 2 * n / (2 * kc) = n / kc := Nat.mul_div_mul_left n kc (by omega)
    have hadd := div_add_div_le (2 * n * c + kc - 1) (2 * n) (2 * kc) (by omega)
    rw [h2n] at hadd
    have hnum : 2 * n * c + kc - 1 + 2 * n = 2 * n * (c + 1) + kc - 1 := by
      have h : 2 * n * (c + 1) = 2 * n * c + 2 * n := by ring
      omega
    rw [hnum] at hadd
    exact hadd
  omega

theorem catCount_high {n kc c : ℕ} (hn : 0 < n) (hkc : 0 < kc) (hc : c < kc) :
    catCount n kc c ≤ n / kc + 1 := by
  rw [catCount_eq_sub hn hkc hc]
  have hkey : binBound n kc (c + 1) ≤ binBound n kc c + n / kc + 1 := by
    unfold binBound
    have h2n : 2 * n / (2 * kc) = n / kc := Nat.mul_div_mul_left n kc (by omega)
    have hadd := div_add_le_succ (2 * n * c + kc - 1) (2 * n) (2 * kc) (by omega)
    rw [h2n] at hadd
    have hnum : 2 * n * c + kc - 1 + 2 * n = 2 * n * (c + 1) + kc - 1 := by
      have h : 2 * n * (c + 1) = 2 * n * c + 2 * n := by ring
      omega
    rw [hnum] at hadd
    exact hadd
  obtain ⟨q, hq⟩ : ∃ q, n / kc = q := ⟨_, rfl⟩
  rw [hq] at hkey ⊢
  omega

theorem catCount_exact {kc m c : ℕ} (hm : 0 < m) (hkc : 0 < kc) (hc : c < kc) :
    catCount (kc * m) kc c = m := by
  rw [catCount_eq_sub (by positivity) hkc hc]
  have hB : ∀ c2 : ℕ, binBound (kc * m) kc c2 = m * c2 := by
    intro c2
    unfold binBound
    rw [show 2 * (kc * m) * c2 + kc - 1 = 2 * kc * (m * c2) + (kc - 1) by ring_nf; omega]
    rw [Nat.mul_add_div (by omega)]
    rw [Nat.div_eq_of_lt (by omega)]
    omega
  rw [hB, hB]
  have h : m * (c + 1) = m * c + m := by ring
  omega

theorem ceil_div_of_not_dvd {n kc : ℕ} (hkc : 0 < kc) (hdvd : ¬ kc ∣ n) :
    (n + kc - 1) / kc = n / kc + 1 := by
  have hmod := Nat.div_add_mod n kc
  have hmlt : n % kc < kc := Nat.mod_lt n hkc
  have hm0 : n % kc ≠ 0 := fun h => hdvd (Nat.dvd_of_mod_eq_zero h)
  have hrw : n + kc - 1 = kc * (n / kc) + (n % kc + kc - 1) := by omega
  rw [hrw, Nat.mul_add_div hkc]
  have h1 : (n % kc + kc - 1) / kc = 1 :=
    Nat.div_eq_of_lt_le (by omega) (by omega)
  omega

theorem catCount_floor_or_ceil {n kc c : ℕ} (hn : 0 < n) (hkc : 0 < kc) (hc : c < kc) :
    catCount n kc c = n / kc ∨ catCount n kc c = (n + kc - 1) / kc := by
  by_cases hdvd : kc ∣ n
  · left
    obtain ⟨m, rfl⟩ := hdvd
    have hm : 0 < m := by
      rcases Nat.eq_zero_or_pos m with h | h
      · subst h; simp at hn
      · exact h
    rw [catCount_exact hm hkc hc]
    exact (Nat.mul_div_cancel_left m hkc).symm
  · have hlow := catCount_low hn hkc hc
    have hhigh := catCount_high hn hkc hc
    rw [ceil_div_of_not_dvd hkc hdvd]
    omega

theorem catIndex_midpoint {n : ℕ} (hn : 0 < n) (kc k : ℕ) :
    catIndex kc ((2 * (k : ℚ) + 1) / (2 * (n : ℚ))) = (2 * k + 1) * kc / (2 * n) := by
  unfold catIndex
  have he : (2 * (k : ℚ) + 1) / (2 * (n : ℚ)) * (kc : ℚ) =
      (((2 * k + 1) * kc : ℕ) : ℚ) / ((2 * n : ℕ) : ℚ) := by
    push_cast
    ring
  rw [he, Int.floor_toNat, Nat.floor_div_nat, Nat.floor_natCast]

theorem countLabel_midpoints {cats : List String} (hnd : cats.Nodup) {c : ℕ}
    (hc : c < cats.length) {n : ℕ} (hn : 0 < n) :
    countLabel (cats.getD c "") ((midpoints n).map (Dim.categorical cats).transform) =
      catCount n cats.length c := by
  unfold countLabel midpoints catCount
  rw [List.map_map, List.countP_map]
  apply List.countP_congr
  intro k hk
  rw [List.mem_range] at hk
  have hkc : 0 < cats.length := by omega
  have hu0 := @midpoint_nonneg n k hk
  have hu1 := @midpoint_lt_one n k hk
  have hidx : catIndex cats.length ((2 * (k : ℚ) + 1) / (2 * (n : ℚ))) < cats.length :=
    catIndex_lt hkc hu0 hu1
  have hval : (Dim.categorical cats).transform ((2 * (k : ℚ) + 1) / (2 * (n : ℚ))) =
      .catVal (cats.getD (catIndex cats.length ((2 * (k : ℚ) + 1) / (2 * (n : ℚ)))) "") := rfl
  simp only [Function.comp_apply, hval]
  rw [List.getD_eq_getElem _ _ hidx, List.getD_eq_getElem _ _ hc]
  rw [← catIndex_midpoint hn cats.length k]
  by_cases heq : catIndex cats.length ((2 * (k : ℚ) + 1) / (2 * (n : ℚ))) = c
  · simp [heq]
  · have hne : cats[catIndex cats.length ((2 * (k : ℚ) + 1) / (2 * (n : ℚ)))] ≠ cats[c] := by
      intro habs
      exact heq ((List.Nodup.getElem_inj_iff hnd).mp habs)
    simp [heq, hne]

theorem lhs_countLabel {dims : List Dim} {m s2 : ℕ} (hm : 0 < m)
    {j : ℕ} (hj : j < dims.length) {cats : List String}
    (hdim : dimAt dims j = .categorical cats)
    (hnd : cats.Nodup) {c : ℕ} (hc : c < cats.length) :
    countLabel (cats.getD c "") (column (lhsPoints dims m s2) j) =
      catCount m cats.length c := by
  rw [column_lhsPoints dims m s2 hj]
  unfold countLabel
  rw [List.Perm.countP_eq _ (lhsColumn_perm (dimAt dims j) m s2 j)]
  rw [hdim]
  exact countLabel_midpoints hnd hc hm

theorem inferDim_str {items : List PyVal} (hne : items ≠ [])
    (hs : items.all PyVal.isStr = true) :
    inferDim items = some (.categorical (items.map PyVal.label)) := by
  match items with
  | [] => exact absurd rfl hne
  | [v] =>
    simp only [inferDim]
    rw [if_pos ⟨by simp, hs⟩]
  | [v, w] =>
    rw [List.all_cons, List.all_cons] at hs
    cases v with
    | float a => simp [PyVal.isStr] at hs
    | int a => simp [PyVal.isStr] at hs
    | str s =>
      cases w with
      | float b => simp [PyVal.isStr] at hs
      | int b => simp [PyVal.isStr] at hs
      | str t =>
        simp only [inferDim]
        rw [if_pos ⟨by simp, by simp [PyVal.isStr]⟩]
  | v :: w :: x :: rest =>
    simp only [inferDim]
    rw [if_pos ⟨by simp, hs⟩]

/-- C8: errors are raised at the phase the spec assigns them: invalid
dimension bounds (low ≥ high for Real, low > high for Integer, empty
categories, non-positive low under log-uniform) and an empty Space give a
ConfigurationError at construction time; sampling never raises a
ConfigurationError; `rvs`/`lhs` with n ≤ 0 fail with InvalidArgument at the
start of the call leaving the RNG state untouched; and with n > 0 a
sampling call returns the full requested sequence. -/
theorem C8_error_phases :
    (∀ (lo hi : ℚ) (p : Prior), hi ≤ lo → mkReal lo hi p = .error .configurationError) ∧
    (∀ lo hi : ℚ, lo ≤ 0 → mkReal lo hi .logUniform = .error .configurationError) ∧
    (∀ lo hi : ℤ, hi < lo → mkInteger lo hi = .error .configurationError) ∧
    mkCategorical [] = .error .configurationError ∧
    mkSpace [] = .error .configurationError ∧
    (∀ (dims : List Dim) (n : ℤ) (seed : Option ℕ) (g : ℕ), n ≤ 0 →
      rvsCall dims n seed g = (.error .invalidArgument, g) ∧
      lhsCall dims n seed g = (.error .invalidArgument, g)) ∧
    (∀ (dims : List Dim) (n : ℤ) (seed : Option ℕ) (g : ℕ) (e : SampleError),
      ((rvsCall dims n seed g).fst = .error e ∨ (lhsCall dims n seed g).fst = .error e) →
      e = .invalidArgument ∧ n ≤ 0) ∧
    (∀ (dims : List Dim) (n : ℤ) (seed : Option ℕ) (g : ℕ), 0 < n →
      ∃ pts1 pts2, (rvsCall dims n seed g).fst = .ok pts1 ∧ pts1.length = n.toNat ∧
        (lhsCall dims n seed g).fst = .ok pts2 ∧ pts2.length = n.toNat) := by
  refine ⟨?_, ?_, ?_, ?_, ?_, ?_, ?_, ?_⟩
  · intro lo hi p h
    unfold mkReal
    rw [if_neg]
    intro hv
    exact absurd hv.1 (not_lt.mpr h)
  · intro lo hi h
    unfold mkReal
    rw [if_neg]
    intro hv
    exact absurd (hv.2 rfl) (not_lt.mpr h)
  · intro lo hi h
    unfold mkInteger
    rw [if_neg]
    intro hv
    exact absurd hv (not_le.mpr h)
  · unfold mkCategorical
    rw [if_neg]
    intro hv
    exact hv.1 rfl
  · unfold mkSpace
    rw [if_neg]
    intro hv
    exact hv.1 rfl
  · intro dims n seed g hn
    constructor <;> simp [rvsCall, lhsCall, hn]
  · intro dims n seed g e h
    refine ⟨by cases e; rfl, ?_⟩
    by_contra hn
    rcases h with h | h
    · cases seed <;> simp [rvsCall, hn] at h
    · cases seed <;> simp [lhsCall, hn] at h
  · intro dims n seed g hn
    have hn2 : ¬ n ≤ 0 := by omega
    cases seed with
    | some s =>
      refine ⟨rvsPoints dims n.toNat (uStream (s + 1)), lhsPoints dims n.toNat (s + 1),
        ?_, rvsPoints_length _ _ _, ?_, lhsPoints_length _ _ _⟩
      · simp [rvsCall, hn2]
      · simp [lhsCall, hn2]
    | none =>
      refine ⟨rvsPoints dims n.toNat (fun c => uStream 0 (g + c)), lhsPoints dims n.toNat 0,
        ?_, rvsPoints_length _ _ _, ?_, lhsPoints_length _ _ _⟩
      · simp [rvsCall, hn2]
      · simp [lhsCall, hn2]

theorem C8_witness :
    mkReal 10 1 .uniform = .error .configurationError ∧
    mkCategorical [] = .error .configurationError ∧
    rvsCall exampleDims 0 none 3 = (.error .invalidArgument, 3) ∧
    ∃ pts1 pts2, (rvsCall exampleDims 2 none 0).fst = .ok pts1 ∧ pts1.length = 2 ∧
      (lhsCall exampleDims 2 none 0).fst = .ok pts2 ∧ pts2.length = 2 := by
  refine ⟨C8_error_phases.1 10 1 .uniform (by norm_num),
    C8_error_phases.2.2.2.1,
    (C8_error_phases.2.2.2.2.2.1 exampleDims 0 none 3 (by norm_num)).1,
    ?_⟩
  exact C8_error_phases.2.2.2.2.2.2.2 exampleDims 2 none 0 (by norm_num)

/-- C9: Space construction from the shorthand list form infers each
entry's Dimension variant by shape — a two-element float list becomes
Real(low, high) with uniform prior, a two-element integer list becomes
Integer(low, high), a list of non-numeric labels becomes
Categorical(labels) — and every sampled point's j-th element has the
native runtime type of dimension j. -/
theorem C9_shorthand_inference :
    inferDim [.float 1, .float 10] = some (.real 1 10 .uniform) ∧
    inferDim [.int 1, .int 10] = some (.integer 1 10) ∧
    (∀ items : List PyVal, items ≠ [] → items.all PyVal.isStr = true →
      inferDim items = some (.categorical (items.map PyVal.label))) ∧
    (∀ (entries : List (List PyVal)) (dims : List Dim),
      mkSpaceShorthand entries = .ok dims →
      ∀ (n : ℤ) (seed : Option ℕ) (g : ℕ) (pts : List (List Value)),
        ((rvsCall dims n seed g).fst = .ok pts ∨ (lhsCall dims n seed g).fst = .ok pts) →
        ∀ p ∈ pts, ∀ j < dims.length, variantMatches (dimAt dims j) (valueAt p j)) := by
  refine ⟨rfl, rfl, fun items hne hs => inferDim_str hne hs, ?_⟩
  intro entries dims hmk n seed g pts h p hp j hj
  obtain ⟨u, -, -, heq⟩ := call_value h hp hj
  rw [heq]
  exact transform_variant _ _

/-- The notebook's shorthand space definition
`[[1., 10.], [1, 10], ["cat", "dog", "elephant"]]`. -/
def exampleShorthand : List (List PyVal) :=
  [[.float 1, .float 10], [.int 1, .int 10], [.str "cat", .str "dog", .str "elephant"]]

theorem C9_witness :
    inferDim [.str "cat"] = some (.categorical ["cat"]) ∧
    variantMatches (dimAt exampleDims 0)
      (valueAt (pointAt (rvsPoints exampleDims 1 (fun c => uStream 0 (0 + c))) 0) 0) := by
  have hmk : mkSpaceShorthand exampleShorthand = .ok exampleDims := rfl
  have h : (rvsCall exampleDims 1 none 0).fst =
      .ok (rvsPoints exampleDims 1 (fun c => uStream 0 (0 + c))) := rfl
  have hm : pointAt (rvsPoints exampleDims 1 (fun c => uStream 0 (0 + c))) 0 ∈
      rvsPoints exampleDims 1 (fun c => uStream 0 (0 + c)) :=
    pointAt_mem (by rw [rvsPoints_length]; norm_num)
  exact ⟨C9_shorthand_inference.2.2.1 [.str "cat"] (by simp) rfl,
    C9_shorthand_inference.2.2.2 exampleShorthand exampleDims hmk 1 none 0 _ (Or.inl h)
      _ hm 0 (by decide)⟩

/-- C10: for every unweighted Categorical dimension with kc categories and
every n > 0, `lhs(n)` with default midpoint placement assigns each category
either floor(n/kc) or ceil(n/kc) of the n points, and the per-category
counts are the same for every seed: each category's count equals the
seed-independent stratum-midpoint bin count `catCount`. -/
theorem C10_lhs_categorical_balance {dims : List Dim} {n : ℤ} {seed : Option ℕ} {g : ℕ}
    {pts : List (List Value)} (h : (lhsCall dims n seed g).fst = .ok pts)
    {j : ℕ} (hj : j < dims.length) {cats : List String}
    (hdim : dimAt dims j = .categorical cats) (hnd : cats.Nodup)
    {c : ℕ} (hc : c < cats.length) :
    countLabel (cats.getD c "") (column pts j) = catCount n.toNat cats.length c ∧
    (∀ (seed2 : Option ℕ) (g2 : ℕ) (pts2 : List (List Value)),
      (lhsCall dims n seed2 g2).fst = .ok pts2 →
      countLabel (cats.getD c "") (column pts2 j) =
        countLabel (cats.getD c "") (column pts j)) ∧
    (catCount n.toNat cats.length c = n.toNat / cats.length ∨
      catCount n.toNat cats.length c = (n.toNat + cats.length - 1) / cats.length) := by
  obtain ⟨hn, s2, rfl⟩ := lhsCall_ok_shape h
  have hcount := @lhs_countLabel dims n.toNat s2 (by omega) j hj cats hdim hnd c hc
  refine ⟨hcount, ?_, catCount_floor_or_ceil (by omega) (by omega) hc⟩
  intro seed2 g2 pts2 h2
  obtain ⟨-, s3, rfl⟩ := lhsCall_ok_shape h2
  rw [hcount, @lhs_countLabel dims n.toNat s3 (by omega) j hj cats hdim hnd c hc]

theorem C10_witness :
    countLabel "cat" (column (lhsPoints exampleDims 5 0) 2) = catCount 5 3 0 ∧
    (catCount 5 3 0 = 5 / 3 ∨ catCount 5 3 0 = (5 + 3 - 1) / 3) := by
  have h : (lhsCall exampleDims 5 none 0).fst = .ok (lhsPoints exampleDims 5 0) := rfl
  have hfull := @C10_lhs_categorical_balance exampleDims 5 none 0 (lhsPoints exampleDims 5 0) h
    2 (by decide) ["cat", "dog", "elephant"] rfl (by decide) 0 (by decide)
  exact ⟨hfull.1, hfull.2.2⟩

end MPO
